import Mathlib

/-!
Verification of the charting core of the `esp32-cyd-obd2` repository,
shallowly embedded in Lean 4.  Floats are modelled as rationals, C `int`
values as unbounded integers (`ℤ`) or naturals (`ℕ`) where the source
guarantees non-negativity.  Each definition is translated from the C
source in `src/main/` (file and function named in its doc comment).
-/

namespace Obd2

/-- State of a multi-channel scrolling chart, from `ChartCtx` in
`src/main/chart.h`.  The flat `data` array (`num_channels` circular
buffers of `history_size` floats each, element `c`,`s` at flat index
`history_size * c + s`) is modelled as a total function from flat
indices to rationals. -/
structure ChartCtx where
  data : ℕ → ℚ
  num_channels : ℕ
  history_size : ℕ
  write_pos : ℕ
  min_value : ℚ
  max_value : ℚ

/-- `chart_init` from `src/main/chart.c`: zero-filled storage, cursor at
slot 0, min/max zeroed. -/
def chart_init (num_channels history_size : ℕ) : ChartCtx :=
  { data := fun _ => 0
    num_channels := num_channels
    history_size := history_size
    write_pos := 0
    min_value := 0
    max_value := 0 }

/-- The channel-writing loop of `chart_push` (`src/main/chart.c`): after
`n` iterations, channels `0 .. n-1` have had their value written at flat
index `history_size * c + write_pos`. -/
def chart_push_writes (ctx : ChartCtx) (values : ℕ → ℚ) : ℕ → (ℕ → ℚ)
  | 0 => ctx.data
  | n + 1 => fun i =>
      if i = ctx.history_size * n + ctx.write_pos then values n
      else chart_push_writes ctx values n i

/-- `chart_push` from `src/main/chart.c`: write one value per channel at
the cursor slot, then advance the cursor, wrapping to 0 when it reaches
`history_size`. -/
def chart_push (ctx : ChartCtx) (values : ℕ → ℚ) : ChartCtx :=
  { ctx with
    data := chart_push_writes ctx values ctx.num_channels
    write_pos :=
      if ctx.write_pos + 1 ≥ ctx.history_size then 0 else ctx.write_pos + 1 }

/-- Modelled from the spec: the repository has no `read` accessor (§4.1
of the design describes it; callers inline the arithmetic), so the
spec's `read(channel, age)` is embedded literally: the sample `age`
pushes old lives at circular index `(cursor - 1 - age) mod depth` inside
the channel's segment, with mathematical modulo. -/
def chart_read (ctx : ChartCtx) (channel age : ℕ) : ℚ :=
  ctx.data (ctx.history_size * channel +
    (((ctx.write_pos : ℤ) - 1 - (age : ℤ)) % (ctx.history_size : ℤ)).toNat)

/-- Circular-buffer index used by the renderer for column `x`, from
`chart_render` in `src/main/chart.c` (`idx_cur`). -/
def render_idx_cur (write_pos x history_size : ℤ) : ℤ :=
  (write_pos + x) % history_size

/-- Modelled from the spec: the read index `(cursor - 1 - age) mod depth`
of §4.1, with mathematical modulo (negative intermediates handled). -/
def spec_read_idx (cursor age depth : ℤ) : ℤ :=
  (cursor - 1 - age) % depth

/-- The min-scan of `chart_update_minmax` (`src/main/chart.c`): fold of
`min` over all `num_channels × history_size` stored samples, seeded with
`data[0]`. -/
def chart_scan_min (ctx : ChartCtx) : ℚ :=
  (List.range ctx.num_channels).foldl (fun m c =>
    (List.range ctx.history_size).foldl (fun m i =>
      min m (ctx.data (ctx.history_size * c + i))) m) (ctx.data 0)

/-- The max-scan of `chart_update_minmax` (`src/main/chart.c`). -/
def chart_scan_max (ctx : ChartCtx) : ℚ :=
  (List.range ctx.num_channels).foldl (fun m c =>
    (List.range ctx.history_size).foldl (fun m i =>
      max m (ctx.data (ctx.history_size * c + i))) m) (ctx.data 0)

/-- `chart_update_minmax` from `src/main/chart.c`: scan for the raw
min/max, then add a 10% margin of the raw range on each side. -/
def chart_update_minmax (ctx : ChartCtx) : ChartCtx :=
  let mn := chart_scan_min ctx
  let mx := chart_scan_max ctx
  let range := mx - mn
  let margin := range * (1 / 10)
  { ctx with min_value := mn - margin, max_value := mx + margin }

/-- The degenerate-range guard at the top of `chart_render`
(`src/main/chart.c` lines 117-122): if the stored min and max coincide,
widen the range by 1 on each side before computing the scale factor. -/
def chart_render_range (min_value max_value : ℚ) : ℚ × ℚ :=
  if min_value = max_value then (min_value - 1, max_value + 1)
  else (min_value, max_value)

/-- The `CLAMP` macro from `src/main/render.c` line 37. -/
def CLAMP (n mn mx : ℤ) : ℤ :=
  if mn ≥ n then mn else if n ≥ mx then mx else n

/-- Loop state of the Bresenham loop in `render_draw_line`
(`src/main/render.c`): the current point and the running error term. -/
structure BresState where
  x : ℤ
  y : ℤ
  err : ℤ
deriving DecidableEq, Repr

/-- One iteration of the Bresenham loop body of `render_draw_line`
(`src/main/render.c` lines 220-228): compute `e2 = 2·err`, step in x
(and subtract `dy` from the error) when `e2 > -dy`, then step in y (and
add `dx` to the error) when `e2 < dx`. -/
def bres_step (dx dy sx sy : ℤ) (s : BresState) : BresState :=
  let e2 := 2 * s.err
  let s1 := if e2 > -dy then { s with x := s.x + sx, err := s.err - dy } else s
  if e2 < dx then { s1 with y := s1.y + sy, err := s1.err + dx } else s1

/-- The sequence of pixels written by the Bresenham loop of
`render_draw_line` (`src/main/render.c` lines 207-229): write the
current pixel, stop if it is the endpoint, otherwise step.  `fuel`
bounds the iteration count; the termination theorem shows that fuel
`dx + dy` always suffices to reach the endpoint. -/
def bres_trace (x1 y1 dx dy sx sy : ℤ) : ℕ → BresState → List (ℤ × ℤ)
  | 0, s => [(s.x, s.y)]
  | n + 1, s =>
      if s.x = x1 ∧ s.y = y1 then [(s.x, s.y)]
      else (s.x, s.y) :: bres_trace x1 y1 dx dy sx sy n (bres_step dx dy sx sy s)

/-- The Bresenham rasterization of `render_draw_line`
(`src/main/render.c` lines 200-229) on already-clamped endpoints:
`dx`/`dy` are absolute differences, `sx`/`sy` unit steps, initial error
`dx - dy`. -/
def bres_points (x0 y0 x1 y1 : ℤ) : List (ℤ × ℤ) :=
  let dx := |x1 - x0|
  let dy := |y1 - y0|
  let sx : ℤ := if x0 < x1 then 1 else -1
  let sy : ℤ := if y0 < y1 then 1 else -1
  bres_trace x1 y1 dx dy sx sy (dx + dy).toNat { x := x0, y := y0, err := dx - dy }

/-- The pixels written by `render_draw_line` (`src/main/render.c` lines
185-230) on a `w × h` surface: all four coordinates are independently
clamped into bounds, then the Bresenham loop runs. -/
def render_draw_line (w h x0 y0 x1 y1 : ℤ) : List (ℤ × ℤ) :=
  bres_points (CLAMP x0 0 (w - 1)) (CLAMP y0 0 (h - 1))
    (CLAMP x1 0 (w - 1)) (CLAMP y1 0 (h - 1))

/-- `rgb888_to_rgb565` from `src/main/render.c` lines 68-79. -/
def rgb888_to_rgb565 (rgb888 : ℕ) : ℕ :=
  let r := (rgb888 >>> 16) &&& 0xFF
  let g := (rgb888 >>> 8) &&& 0xFF
  let b := rgb888 &&& 0xFF
  let r5 := (r * 0x1F / 0xFF) &&& 0x1F
  let g6 := (g * 0x3F / 0xFF) &&& 0x3F
  let b5 := (b * 0x1F / 0xFF) &&& 0x1F
  (r5 <<< 11) ||| (g6 <<< 5) ||| b5

/-- The channel color palette of `chart_render` (`src/main/chart.c`
lines 103-112). -/
def channel_colors : List ℕ :=
  [0xFF0000, 0x00FF00, 0x0000FF, 0xFFFF00, 0xFF00FF, 0x00FFFF, 0xFFFFFF,
   0xFF8800]

/-- C-style cast of a rational to `int`: truncation toward zero. -/
def c_trunc (q : ℚ) : ℤ :=
  if 0 ≤ q then ⌊q⌋ else ⌈q⌉

/-- The framebuffer writes performed by one `chart_render` call
(`src/main/chart.c` lines 101-157) on a `w × h` surface, in program
order, as pairs of flat framebuffer index `w·y + x` (from
`src/main/render.c` line 209) and RGB565 value.  For each channel and
each column `x ∈ [1, history_size)` it reads the two circular-buffer
samples at `(write_pos + x - 1) mod history_size` and
`(write_pos + x) mod history_size`, converts them to screen Y
coordinates, and draws the clamped Bresenham segment in the channel's
palette color. -/
def chart_render_writes (ctx : ChartCtx) (w h : ℤ) : List (ℤ × ℕ) :=
  let mnmx := chart_render_range ctx.min_value ctx.max_value
  let scale : ℚ := (h : ℚ) / (mnmx.2 - mnmx.1)
  (List.range ctx.num_channels).flatMap fun c =>
    (List.range (ctx.history_size - 1)).flatMap fun k =>
      let x := k + 1
      let idx_prev := (ctx.write_pos + x - 1) % ctx.history_size
      let idx_cur := (ctx.write_pos + x) % ctx.history_size
      let val_prev := ctx.data (ctx.history_size * c + idx_prev)
      let val_cur := ctx.data (ctx.history_size * c + idx_cur)
      let y_prev := h - c_trunc ((val_prev - mnmx.1) * scale)
      let y_cur := h - c_trunc ((val_cur - mnmx.1) * scale)
      let color := rgb888_to_rgb565 (channel_colors.getD (c % 8) 0)
      (render_draw_line w h ((x : ℤ) - 1) y_prev (x : ℤ) y_cur).map
        fun p => (w * p.2 + p.1, color)

/-- Apply a list of framebuffer writes (flat index, RGB565 value) in
order to a framebuffer, modelled as a total map from flat indices to
pixel values (`ctx->framebuffer[i] = v` in `src/main/render.c`). -/
def apply_writes (ws : List (ℤ × ℕ)) (fb : ℤ → ℕ) : ℤ → ℕ :=
  ws.foldl (fun f w => fun j => if j = w.1 then w.2 else f j) fb

/-- `chart_render` (`src/main/chart.c`) as a framebuffer transformer:
perform all its pixel writes, in order, on the given framebuffer. -/
def chart_render (ctx : ChartCtx) (w h : ℤ) (fb : ℤ → ℕ) : ℤ → ℕ :=
  apply_writes (chart_render_writes ctx w h) fb

/-- The `isspace` test from `ctype.h` used by `serial_uart_read_value`:
true for space (32) and the characters 9-13 (tab, newline, vertical
tab, form feed, carriage return). -/
def is_space_byte (b : ℕ) : Bool :=
  b = 32 || (9 ≤ b && b ≤ 13)

/-- Result of the byte-accumulation loop of `serial_uart_read_value`
(`src/main/serial_uart.c` lines 74-107): either a delimiter was reached
with a non-empty token (the buffer prefix that `strtod` will read, cut
at the first embedded NUL byte, since the buffer is NUL-terminated at
the write position), or the buffer filled up (`return false`), or the
modelled byte stream ran out while the loop was still waiting. -/
inductive ScanResult where
  | token : List ℕ → ScanResult
  | overflow : ScanResult
  | pending : ScanResult
deriving DecidableEq, Repr

/-- The accumulation loop of `serial_uart_read_value`
(`src/main/serial_uart.c` lines 74-110).  `buf` is the `static char
digit_buffer[64]` (its contents possibly left over from an earlier
call), `pos` the per-call `digit_buffer_pos`, and `input` the sequence
of bytes the UART delivers during this invocation (a timed-out read
just re-enters the loop, so only delivered bytes matter).  Whitespace
before any accumulated byte is skipped; whitespace after ends the
token; a non-space byte with `pos ≥ 63` aborts; otherwise the byte is
stored and the position advanced. -/
def scan_loop (buf : ℕ → ℕ) (pos : ℕ) : List ℕ → ScanResult
  | [] => .pending
  | b :: rest =>
      if is_space_byte b then
        if pos = 0 then scan_loop buf pos rest
        else .token (((List.range pos).map buf).takeWhile (fun v => v ≠ 0))
      else if pos ≥ 63 then .overflow
      else scan_loop (fun i => if i = pos then b else buf i) (pos + 1) rest

/-- `serial_uart_read_value` (`src/main/serial_uart.c` lines 66-123) as
a function of the per-invocation byte stream.  `parse` stands for the
libc `strtod` together with its failure check (`endptr == buffer` or
`errno == ERANGE`), `buf` for the residual contents of the static
buffer, and `dst` for the float the destination pointer refers to.
Returns `none` when the loop never terminates on the given stream,
otherwise the returned flag and the final value of the destination:
`dst` is overwritten only on the successful path. -/
def serial_uart_read_value (parse : List ℕ → Option ℚ) (buf : ℕ → ℕ)
    (dst : ℚ) (input : List ℕ) : Option (Bool × ℚ) :=
  match scan_loop buf 0 input with
  | .pending => none
  | .overflow => some (false, dst)
  | .token t =>
      match parse t with
      | none => some (false, dst)
      | some v => some (true, v)

/-! ### Helper lemmas about the min/max scans -/

lemma foldl_fix {α : Type} (step : ℚ → α → ℚ) (v : ℚ) :
    ∀ l : List α, (∀ a ∈ l, step v a = v) → l.foldl step v = v := by
  intro l
  induction l with
  | nil => intro _; rfl
  | cons a l ih =>
      intro h
      have ha : step v a = v := h a (List.mem_cons_self a l)
      simpa [List.foldl_cons, ha] using ih fun b hb => h b (List.mem_cons_of_mem a hb)

lemma foldl_le_init {α : Type} (step : ℚ → α → ℚ)
    (hstep : ∀ m a, step m a ≤ m) :
    ∀ (l : List α) (m : ℚ), l.foldl step m ≤ m := by
  intro l
  induction l with
  | nil => intro m; exact le_refl m
  | cons a l ih =>
      intro m
      exact le_trans (ih (step m a)) (hstep m a)

lemma foldl_le_target {α : Type} (step : ℚ → α → ℚ)
    (hstep : ∀ m a, step m a ≤ m) (t : ℚ) :
    ∀ (l : List α) (m : ℚ) (a : α), a ∈ l → (∀ m', step m' a ≤ t) →
      l.foldl step m ≤ t := by
  intro l
  induction l with
  | nil => intro m a ha; exact absurd ha (List.not_mem_nil a)
  | cons b l ih =>
      intro m a ha hat
      rcases List.mem_cons.mp ha with h | h
      · subst h
        exact le_trans (foldl_le_init step hstep l (step m a)) (hat m)
      · exact ih (step m b) a h hat

lemma foldl_ge_init {α : Type} (step : ℚ → α → ℚ)
    (hstep : ∀ m a, m ≤ step m a) :
    ∀ (l : List α) (m : ℚ), m ≤ l.foldl step m := by
  intro l
  induction l with
  | nil => intro m; exact le_refl m
  | cons a l ih =>
      intro m
      exact le_trans (hstep m a) (ih (step m a))

lemma foldl_ge_target {α : Type} (step : ℚ → α → ℚ)
    (hstep : ∀ m a, m ≤ step m a) (t : ℚ) :
    ∀ (l : List α) (m : ℚ) (a : α), a ∈ l → (∀ m', t ≤ step m' a) →
      t ≤ l.foldl step m := by
  intro l
  induction l with
  | nil => intro m a ha; exact absurd ha (List.not_mem_nil a)
  | cons b l ih =>
      intro m a ha hat
      rcases List.mem_cons.mp ha with h | h
      · subst h
        exact le_trans (hat m) (foldl_ge_init step hstep l (step m a))
      · exact ih (step m b) a h hat

/-- The min-scan is bounded above by every stored sample. -/
lemma chart_scan_min_le (ctx : ChartCtx) (c i : ℕ)
    (hc : c < ctx.num_channels) (hi : i < ctx.history_size) :
    chart_scan_min ctx ≤ ctx.data (ctx.history_size * c + i) := by
  unfold chart_scan_min
  refine foldl_le_target _ ?_ _ _ _ c (List.mem_range.mpr hc) ?_
  · intro m a
    exact foldl_le_init _ (fun m' b => min_le_left _ _) _ m
  · intro m'
    refine foldl_le_target _ (fun m b => min_le_left _ _) _ _ _ i
      (List.mem_range.mpr hi) ?_
    intro m''
    exact min_le_right _ _

/-- The max-scan is bounded below by every stored sample. -/
lemma le_chart_scan_max (ctx : ChartCtx) (c i : ℕ)
    (hc : c < ctx.num_channels) (hi : i < ctx.history_size) :
    ctx.data (ctx.history_size * c + i) ≤ chart_scan_max ctx := by
  unfold chart_scan_max
  refine foldl_ge_target _ ?_ _ _ _ c (List.mem_range.mpr hc) ?_
  · intro m a
    exact foldl_ge_init _ (fun m' b => le_max_left _ _) _ m
  · intro m'
    refine foldl_ge_target _ (fun m b => le_max_left _ _) _ _ _ i
      (List.mem_range.mpr hi) ?_
    intro m''
    exact le_max_right _ _

/-- The raw min never exceeds the raw max (both scans start from
`data[0]`). -/
lemma chart_scan_min_le_max (ctx : ChartCtx) :
    chart_scan_min ctx ≤ chart_scan_max ctx := by
  have h1 : chart_scan_min ctx ≤ ctx.data 0 :=
    foldl_le_init _ (fun m a => foldl_le_init _ (fun m' b => min_le_left _ _) _ m) _ _
  have h2 : ctx.data 0 ≤ chart_scan_max ctx :=
    foldl_ge_init _ (fun m a => foldl_ge_init _ (fun m' b => le_max_left _ _) _ m) _ _
  exact le_trans h1 h2

/-- When every stored sample equals `v`, the min-scan returns `v`. -/
lemma chart_scan_min_const (ctx : ChartCtx) (v : ℚ)
    (hC : 0 < ctx.num_channels) (hd : 0 < ctx.history_size)
    (hv : ∀ c < ctx.num_channels, ∀ i < ctx.history_size,
      ctx.data (ctx.history_size * c + i) = v) :
    chart_scan_min ctx = v := by
  have h0 : ctx.data 0 = v := by
    have := hv 0 hC 0 hd
    simpa using this
  unfold chart_scan_min
  rw [h0]
  refine foldl_fix _ _ _ ?_
  intro c hcmem
  refine foldl_fix _ _ _ ?_
  intro i himem
  rw [hv c (List.mem_range.mp hcmem) i (List.mem_range.mp himem)]
  exact min_self v

/-- When every stored sample equals `v`, the max-scan returns `v`. -/
lemma chart_scan_max_const (ctx : ChartCtx) (v : ℚ)
    (hC : 0 < ctx.num_channels) (hd : 0 < ctx.history_size)
    (hv : ∀ c < ctx.num_channels, ∀ i < ctx.history_size,
      ctx.data (ctx.history_size * c + i) = v) :
    chart_scan_max ctx = v := by
  have h0 : ctx.data 0 = v := by
    have := hv 0 hC 0 hd
    simpa using this
  unfold chart_scan_max
  rw [h0]
  refine foldl_fix _ _ _ ?_
  intro c hcmem
  refine foldl_fix _ _ _ ?_
  intro i himem
  rw [hv c (List.mem_range.mp hcmem) i (List.mem_range.mp himem)]
  exact max_self v

/-! ### Claims C3, C4, C5 -/

/-- C3.  Degenerate-range handling: when every stored sample equals the
same value `v` (so the raw min and max both equal `v`),
`chart_update_minmax` stores `min_value = max_value = v`, and the range
that `chart_render` then uses for scaling is `[v - 1, v + 1]`, whose
span is strictly positive, so the scale factor's denominator is
nonzero. -/
theorem degenerate_range_is_v_pm_one (ctx : ChartCtx) (v : ℚ)
    (hC : 0 < ctx.num_channels) (hd : 0 < ctx.history_size)
    (hv : ∀ c < ctx.num_channels, ∀ i < ctx.history_size,
      ctx.data (ctx.history_size * c + i) = v) :
    chart_render_range (chart_update_minmax ctx).min_value
        (chart_update_minmax ctx).max_value = (v - 1, v + 1) ∧
    (0 : ℚ) < (v + 1) - (v - 1) := by
  have hmin : chart_scan_min ctx = v := chart_scan_min_const ctx v hC hd hv
  have hmax : chart_scan_max ctx = v := chart_scan_max_const ctx v hC hd hv
  constructor
  · simp [chart_update_minmax, chart_render_range, hmin, hmax]
  · linarith

/-- Witness for C3 at a concrete flat store (1 channel, depth 1, all
samples equal to 5). -/
theorem degenerate_range_is_v_pm_one_witness :
    (0 : ℕ) < 1 ∧
    chart_render_range
        (chart_update_minmax
          { data := fun _ => 5, num_channels := 1, history_size := 1,
            write_pos := 0, min_value := 0, max_value := 0 }).min_value
        (chart_update_minmax
          { data := fun _ => 5, num_channels := 1, history_size := 1,
            write_pos := 0, min_value := 0, max_value := 0 }).max_value
      = (4, 6) ∧ (0 : ℚ) < (5 + 1) - (5 - 1) :=
  ⟨by decide,
   by
     have h := degenerate_range_is_v_pm_one
       { data := fun _ => 5, num_channels := 1, history_size := 1,
         write_pos := 0, min_value := 0, max_value := 0 } 5
       (by decide) (by decide) (fun c _ i _ => rfl)
     have h1 := h.1
     norm_num at h1 ⊢
     exact h1,
   by norm_num⟩

/-- C4.  Auto-scaling margin: for a non-degenerate sample set (raw min
strictly below raw max) the computed range is
`[raw_min - 0.1·(raw_max - raw_min), raw_max + 0.1·(raw_max - raw_min)]`,
it brackets every stored sample, and its span is `1.2 × (raw_max -
raw_min)`. -/
theorem autoscale_margin (ctx : ChartCtx)
    (hnd : chart_scan_min ctx < chart_scan_max ctx) :
    (chart_update_minmax ctx).min_value
        = chart_scan_min ctx
          - (chart_scan_max ctx - chart_scan_min ctx) * (1 / 10) ∧
    (chart_update_minmax ctx).max_value
        = chart_scan_max ctx
          + (chart_scan_max ctx - chart_scan_min ctx) * (1 / 10) ∧
    (∀ c < ctx.num_channels, ∀ i < ctx.history_size,
      (chart_update_minmax ctx).min_value
          ≤ ctx.data (ctx.history_size * c + i) ∧
      ctx.data (ctx.history_size * c + i)
          ≤ (chart_update_minmax ctx).max_value) ∧
    (chart_update_minmax ctx).max_value - (chart_update_minmax ctx).min_value
        = (1.2 : ℚ) * (chart_scan_max ctx - chart_scan_min ctx) := by
  refine ⟨rfl, rfl, ?_, ?_⟩
  · intro c hc i hi
    have hlo := chart_scan_min_le ctx c i hc hi
    have hhi := le_chart_scan_max ctx c i hc hi
    have hmargin : 0 ≤ (chart_scan_max ctx - chart_scan_min ctx) * (1 / 10) := by
      nlinarith
    constructor
    · show chart_scan_min ctx
          - (chart_scan_max ctx - chart_scan_min ctx) * (1 / 10)
          ≤ ctx.data (ctx.history_size * c + i)
      linarith
    · show ctx.data (ctx.history_size * c + i)
          ≤ chart_scan_max ctx
            + (chart_scan_max ctx - chart_scan_min ctx) * (1 / 10)
      linarith
  · show chart_scan_max ctx
        + (chart_scan_max ctx - chart_scan_min ctx) * (1 / 10)
        - (chart_scan_min ctx
          - (chart_scan_max ctx - chart_scan_min ctx) * (1 / 10))
        = (1.2 : ℚ) * (chart_scan_max ctx - chart_scan_min ctx)
    ring_nf

/-- Witness for C4 at a concrete store (1 channel, depth 2, samples
0 and 1). -/
theorem autoscale_margin_witness :
    chart_scan_min
        { data := fun i => (i : ℚ), num_channels := 1, history_size := 2,
          write_pos := 0, min_value := 0, max_value := 0 }
      < chart_scan_max
        { data := fun i => (i : ℚ), num_channels := 1, history_size := 2,
          write_pos := 0, min_value := 0, max_value := 0 } ∧
    (chart_update_minmax
        { data := fun i => (i : ℚ), num_channels := 1, history_size := 2,
          write_pos := 0, min_value := 0, max_value := 0 }).max_value
      - (chart_update_minmax
        { data := fun i => (i : ℚ), num_channels := 1, history_size := 2,
          write_pos := 0, min_value := 0, max_value := 0 }).min_value
      = (1.2 : ℚ) :=
  ⟨by decide,
   by
     have h := (autoscale_margin
       { data := fun i => (i : ℚ), num_channels := 1, history_size := 2,
         write_pos := 0, min_value := 0, max_value := 0 } (by decide)).2.2.2
     have hmn : chart_scan_min
         { data := fun i => (i : ℚ), num_channels := 1, history_size := 2,
           write_pos := 0, min_value := 0, max_value := 0 } = 0 := by decide
     have hmx : chart_scan_max
         { data := fun i => (i : ℚ), num_channels := 1, history_size := 2,
           write_pos := 0, min_value := 0, max_value := 0 } = 1 := by decide
     rw [hmn, hmx] at h
     simpa using h⟩

/-- C5.  Column-to-age alignment: for a cursor in `[0, depth)` and a
column `x` in `[1, depth)`, the renderer's circular index
`(cursor + x) mod depth` equals the spec's read index
`(cursor - 1 - age) mod depth` at `age = depth - 1 - x`; at the
rightmost column `x = depth - 1` that age is 0, so the rightmost column
shows the most recent sample. -/
theorem render_column_age_alignment (write_pos x depth : ℤ)
    (hwp0 : 0 ≤ write_pos) (hwp : write_pos < depth)
    (hx1 : 1 ≤ x) (hx : x < depth) :
    render_idx_cur write_pos x depth
        = spec_read_idx write_pos (depth - 1 - x) depth ∧
    (x = depth - 1 → depth - 1 - x = 0) := by
  constructor
  · unfold render_idx_cur spec_read_idx
    have h : write_pos - 1 - (depth - 1 - x) = write_pos + x + depth * (-1) := by
      ring
    rw [h, Int.add_mul_emod_self_left]
  · intro h
    omega

/-- Witness for C5 at `write_pos = 2`, `x = 3`, `depth = 4`. -/
theorem render_column_age_alignment_witness :
    (0 : ℤ) ≤ 2 ∧ (2 : ℤ) < 4 ∧ (1 : ℤ) ≤ 3 ∧ (3 : ℤ) < 4 ∧
    (render_idx_cur 2 3 4 = spec_read_idx 2 (4 - 1 - 3) 4 ∧
      ((3 : ℤ) = 4 - 1 → (4 : ℤ) - 1 - 3 = 0)) :=
  ⟨by decide, by decide, by decide, by decide,
   render_column_age_alignment 2 3 4 (by decide) (by decide) (by decide)
     (by decide)⟩

/-! ### Helper lemmas for the circular store (claim C1) -/

/-- A flat index `d·c + a` with `a < d` determines `c` and `a`
uniquely. -/
lemma flat_index_inj (d a b c c' : ℕ) (ha : a < d) (hb : b < d)
    (h : d * c + a = d * c' + b) : c = c' ∧ a = b := by
  have hcc : c = c' := by
    by_contra hne
    rcases Nat.lt_or_ge c c' with hlt | hge
    · have h1 : d * (c + 1) ≤ d * c' := Nat.mul_le_mul_left d hlt
      have h2 : d * c + a < d * c' + b := by
        calc d * c + a < d * c + d := by omega
          _ = d * (c + 1) := by ring
          _ ≤ d * c' := h1
          _ ≤ d * c' + b := by omega
      omega
    · have hlt' : c' < c := lt_of_le_of_ne hge (Ne.symm hne)
      have h1 : d * (c' + 1) ≤ d * c := Nat.mul_le_mul_left d hlt'
      have h2 : d * c' + b < d * c + a := by
        calc d * c' + b < d * c' + d := by omega
          _ = d * (c' + 1) := by ring
          _ ≤ d * c := h1
          _ ≤ d * c + a := by omega
      omega
  subst hcc
  exact ⟨rfl, by omega⟩

/-- After the write loop has processed `n` channels, channel `c < n`
holds its new value at the cursor slot. -/
lemma chart_push_writes_at (ctx : ChartCtx) (values : ℕ → ℚ)
    (hd : 0 < ctx.history_size) :
    ∀ n c, c < n →
      chart_push_writes ctx values n
          (ctx.history_size * c + ctx.write_pos) = values c := by
  intro n
  induction n with
  | zero => intro c hc; omega
  | succ n ih =>
      intro c hc
      by_cases hcn : c = n
      · subst hcn
        simp [chart_push_writes]
      · have hlt : c < n := by omega
        have hne : ctx.history_size * c + ctx.write_pos
            ≠ ctx.history_size * n + ctx.write_pos := by
          intro heq
          have h2 : ctx.history_size * c = ctx.history_size * n := by omega
          have h3 : c = n :=
            Nat.eq_of_mul_eq_mul_left hd h2
          exact hcn h3
        simp only [chart_push_writes, if_neg hne]
        exact ih c hlt

/-- Indices not written by the push loop keep their old contents. -/
lemma chart_push_writes_ne (ctx : ChartCtx) (values : ℕ → ℚ) :
    ∀ n i, (∀ c < n, i ≠ ctx.history_size * c + ctx.write_pos) →
      chart_push_writes ctx values n i = ctx.data i := by
  intro n
  induction n with
  | zero => intro i _; rfl
  | succ n ih =>
      intro i h
      have hne : i ≠ ctx.history_size * n + ctx.write_pos :=
        h n (Nat.lt_succ_self n)
      simp only [chart_push_writes, if_neg hne]
      exact ih i fun c hc => h c (Nat.lt_succ_of_lt hc)

/-- The cursor after a push, as an integer: `(write_pos + 1) mod
history_size`. -/
lemma chart_push_write_pos (ctx : ChartCtx) (values : ℕ → ℚ)
    (hwp : ctx.write_pos < ctx.history_size) :
    ((chart_push ctx values).write_pos : ℤ)
      = ((ctx.write_pos : ℤ) + 1) % (ctx.history_size : ℤ) := by
  simp only [chart_push]
  by_cases h : ctx.write_pos + 1 ≥ ctx.history_size
  · have heq : ctx.write_pos + 1 = ctx.history_size := by omega
    rw [if_pos h]
    have : ((ctx.write_pos : ℤ) + 1) = (ctx.history_size : ℤ) := by
      exact_mod_cast congrArg (Nat.cast : ℕ → ℤ) heq
    rw [this, Int.emod_self]
    rfl
  · rw [if_neg h]
    have hlt : (ctx.write_pos : ℤ) + 1 < (ctx.history_size : ℤ) := by
      exact_mod_cast Nat.lt_of_not_le h
    rw [Int.emod_eq_of_lt (by positivity) hlt]
    push_cast
    rfl

/-- Dropping an inner `% d` from the left operand of a subtraction does
not change the residue. -/
lemma emod_sub_cancel_left (a k d : ℤ) : (a % d - k) % d = (a - k) % d := by
  rw [Int.sub_emod, Int.emod_emod_of_dvd a dvd_rfl, ← Int.sub_emod]

/-- Reading at age 0 right after a push returns the value just pushed
for that channel. -/
lemma chart_read_push_zero (ctx : ChartCtx) (values : ℕ → ℚ) (c : ℕ)
    (hd : 0 < ctx.history_size) (hwp : ctx.write_pos < ctx.history_size)
    (hc : c < ctx.num_channels) :
    chart_read (chart_push ctx values) c 0 = values c := by
  have hidx : (((chart_push ctx values).write_pos : ℤ) - 1 - ((0 : ℕ) : ℤ))
      % ((chart_push ctx values).history_size : ℤ) = (ctx.write_pos : ℤ) := by
    have hhs : (chart_push ctx values).history_size = ctx.history_size := rfl
    rw [hhs, chart_push_write_pos ctx values hwp]
    have h1 : ((ctx.write_pos : ℤ) + 1) % (ctx.history_size : ℤ) - 1 - ((0 : ℕ) : ℤ)
        = ((ctx.write_pos : ℤ) + 1) % (ctx.history_size : ℤ) - 1 := by
      push_cast; ring
    rw [h1, emod_sub_cancel_left]
    have h2 : (ctx.write_pos : ℤ) + 1 - 1 = (ctx.write_pos : ℤ) := by ring
    rw [h2, Int.emod_eq_of_lt (by positivity) (by exact_mod_cast hwp)]
  unfold chart_read
  rw [hidx]
  have htn : ((ctx.write_pos : ℤ)).toNat = ctx.write_pos := Int.toNat_natCast _
  rw [htn]
  have hhs : (chart_push ctx values).history_size = ctx.history_size := rfl
  rw [hhs]
  exact chart_push_writes_at ctx values hd ctx.num_channels c hc

/-- Reading at a positive age right after a push returns what the
store previously held one age earlier: the pushed slot is never the one
read. -/
lemma chart_read_push_succ (ctx : ChartCtx) (values : ℕ → ℚ) (c age : ℕ)
    (hd : 0 < ctx.history_size) (hwp : ctx.write_pos < ctx.history_size)
    (h1 : 0 < age) (h2 : age < ctx.history_size) :
    chart_read (chart_push ctx values) c age = chart_read ctx c (age - 1) := by
  have hdZ : (0 : ℤ) < (ctx.history_size : ℤ) := by exact_mod_cast hd
  have hL : (((chart_push ctx values).write_pos : ℤ) - 1 - (age : ℤ))
      % ((chart_push ctx values).history_size : ℤ)
      = ((ctx.write_pos : ℤ) - (age : ℤ)) % (ctx.history_size : ℤ) := by
    have hhs : (chart_push ctx values).history_size = ctx.history_size := rfl
    rw [hhs, chart_push_write_pos ctx values hwp]
    have e1 : ((ctx.write_pos : ℤ) + 1) % (ctx.history_size : ℤ) - 1 - (age : ℤ)
        = ((ctx.write_pos : ℤ) + 1) % (ctx.history_size : ℤ) - (1 + (age : ℤ)) := by
      ring
    rw [e1, emod_sub_cancel_left]
    congr 1
    ring
  have hR : ((ctx.write_pos : ℤ) - 1 - ((age - 1 : ℕ) : ℤ))
      % (ctx.history_size : ℤ)
      = ((ctx.write_pos : ℤ) - (age : ℤ)) % (ctx.history_size : ℤ) := by
    congr 1
    have hcast : ((age - 1 : ℕ) : ℤ) = (age : ℤ) - 1 := by
      have h1' : (1 : ℕ) ≤ age := h1
      push_cast [h1']
      ring
    rw [hcast]
    ring
  unfold chart_read
  rw [hL, hR]
  show chart_push_writes ctx values ctx.num_channels _ = _
  have hj0 : 0 ≤ ((ctx.write_pos : ℤ) - (age : ℤ)) % (ctx.history_size : ℤ) :=
    Int.emod_nonneg _ (by omega)
  have hjlt : ((ctx.write_pos : ℤ) - (age : ℤ)) % (ctx.history_size : ℤ)
      < (ctx.history_size : ℤ) := Int.emod_lt_of_pos _ hdZ
  refine chart_push_writes_ne ctx values ctx.num_channels _ ?_
  intro c' hc' heq
  have hjtn : (((ctx.write_pos : ℤ) - (age : ℤ))
      % (ctx.history_size : ℤ)).toNat < ctx.history_size := by omega
  obtain ⟨hcc, hjw⟩ := flat_index_inj ctx.history_size _ _ c c' hjtn hwp heq
  have hjint : ((ctx.write_pos : ℤ) - (age : ℤ)) % (ctx.history_size : ℤ)
      = (ctx.write_pos : ℤ) := by omega
  have hwpmod : (ctx.write_pos : ℤ) % (ctx.history_size : ℤ)
      = (ctx.write_pos : ℤ) :=
    Int.emod_eq_of_lt (by positivity) (by exact_mod_cast hwp)
  have hmodeq : ((ctx.write_pos : ℤ) - (age : ℤ)) % (ctx.history_size : ℤ)
      = (ctx.write_pos : ℤ) % (ctx.history_size : ℤ) := by rw [hjint, hwpmod]
  rw [Int.emod_eq_emod_iff_emod_sub_eq_zero] at hmodeq
  have hsub : (ctx.write_pos : ℤ) - (age : ℤ) - (ctx.write_pos : ℤ)
      = -(age : ℤ) := by ring
  rw [hsub] at hmodeq
  have hdvd : (ctx.history_size : ℤ) ∣ (age : ℤ) :=
    (dvd_neg).mp (Int.dvd_of_emod_eq_zero hmodeq)
  have hle : (ctx.history_size : ℤ) ≤ (age : ℤ) :=
    Int.le_of_dvd (by exact_mod_cast h1) hdvd
  have : ctx.history_size ≤ age := by exact_mod_cast hle
  omega

/-- Pushes keep the channel count and depth, and keep the cursor below
the depth. -/
lemma foldl_push_invariant (vss : List (ℕ → ℚ)) :
    ∀ σ : ChartCtx, σ.write_pos < σ.history_size →
      (List.foldl chart_push σ vss).num_channels = σ.num_channels ∧
      (List.foldl chart_push σ vss).history_size = σ.history_size ∧
      (List.foldl chart_push σ vss).write_pos < σ.history_size := by
  induction vss with
  | nil => intro σ h; exact ⟨rfl, rfl, h⟩
  | cons v vss ih =>
      intro σ h
      have hstep : (chart_push σ v).write_pos < (chart_push σ v).history_size := by
        simp only [chart_push]
        split_ifs <;> omega
      have hrec := ih (chart_push σ v) hstep
      simp only [List.foldl_cons]
      exact ⟨hrec.1, hrec.2.1, hrec.2.2⟩

/-- Core of claim C1, with the age universally quantified for the
induction over the push sequence. -/
lemma circular_store_read_aux (C d : ℕ) (hd : 0 < d) (c : ℕ) (hc : c < C) :
    ∀ vss : List (ℕ → ℚ), ∀ age : ℕ, age < d → age < vss.length →
      chart_read (List.foldl chart_push (chart_init C d) vss) c age
        = (vss.reverse.getD age (fun _ => 0)) c := by
  intro vss
  induction vss using List.reverseRecOn with
  | nil => intro age _ h; simp at h
  | append_singleton ws v ih =>
      intro age hage_d hage_l
      rw [List.foldl_append, List.foldl_cons, List.foldl_nil]
      obtain ⟨hnc, hhs, hwp⟩ :=
        foldl_push_invariant ws (chart_init C d) (by simpa [chart_init] using hd)
      have hnc' : (List.foldl chart_push (chart_init C d) ws).num_channels = C := hnc
      have hhs' : (List.foldl chart_push (chart_init C d) ws).history_size = d := hhs
      have hwp' : (List.foldl chart_push (chart_init C d) ws).write_pos < d := hwp
      rcases Nat.eq_zero_or_pos age with h0 | hpos
      · subst h0
        rw [chart_read_push_zero _ v c (by rw [hhs']; exact hd)
          (by rw [hhs']; exact hwp') (by rw [hnc']; exact hc)]
        simp [List.reverse_append]
      · obtain ⟨a, rfl⟩ : ∃ a, age = a + 1 := ⟨age - 1, by omega⟩
        rw [chart_read_push_succ _ v c (a + 1) (by rw [hhs']; exact hd)
          (by rw [hhs']; exact hwp') hpos (by rw [hhs']; exact hage_d)]
        have ha_d : a < d := by omega
        have ha_l : a < ws.length := by
          have : (ws ++ [v]).length = ws.length + 1 := by simp
          omega
        have hsimp : a + 1 - 1 = a := by omega
        rw [hsimp, ih a ha_d ha_l]
        have hrev : (ws ++ [v]).reverse = v :: ws.reverse := by simp
        rw [hrev]
        simp [List.getD_cons_succ]

/-- C1.  Circular-store correctness: starting from a freshly initialized
chart and pushing any sequence of per-channel value vectors, reading
channel `c` at age `age` (for `age` below both the depth and the number
of pushes) through the spec's index `(cursor - 1 - age) mod depth`
yields the `(age+1)`-th most recently pushed value for that channel.
In particular age 0 yields the most recent push, and once `depth` or
more pushes happened, ages `0 .. depth-1` enumerate exactly the last
`depth` pushed values, newest at age 0 and oldest at age `depth - 1`. -/
theorem circular_store_read (num_channels history_size : ℕ)
    (vss : List (ℕ → ℚ)) (c age : ℕ)
    (hd : 0 < history_size) (hc : c < num_channels)
    (hage_d : age < history_size) (hage_l : age < vss.length) :
    chart_read (List.foldl chart_push (chart_init num_channels history_size) vss)
        c age
      = (vss.reverse.getD age (fun _ => 0)) c :=
  circular_store_read_aux num_channels history_size hd c hc vss age hage_d hage_l

/-- Witness for C1 on the spec's worked example: 2 channels of depth 4,
five pushes; channel 0 at age 1 reads the 2nd most recent value, 4. -/
theorem circular_store_read_witness :
    (0 : ℕ) < 4 ∧ (0 : ℕ) < 2 ∧ (1 : ℕ) < 4 ∧
    (1 : ℕ) < ([fun c => if c = 0 then (1 : ℚ) else 10,
      fun c => if c = 0 then 2 else 20, fun c => if c = 0 then 3 else 30,
      fun c => if c = 0 then 4 else 40,
      fun c => if c = 0 then 5 else 50] : List (ℕ → ℚ)).length ∧
    chart_read (List.foldl chart_push (chart_init 2 4)
        [fun c => if c = 0 then (1 : ℚ) else 10,
         fun c => if c = 0 then 2 else 20, fun c => if c = 0 then 3 else 30,
         fun c => if c = 0 then 4 else 40,
         fun c => if c = 0 then 5 else 50]) 0 1
      = (([fun c => if c = 0 then (1 : ℚ) else 10,
          fun c => if c = 0 then 2 else 20, fun c => if c = 0 then 3 else 30,
          fun c => if c = 0 then 4 else 40,
          fun c => if c = 0 then 5 else 50] : List (ℕ → ℚ)).reverse.getD 1
          (fun _ => 0)) 0 :=
  ⟨by decide, by decide, by decide, by decide,
   circular_store_read 2 4 _ 0 1 (by decide) (by decide) (by decide)
     (by decide)⟩

/-! ### Helper lemmas for the Bresenham rasterizer (claims C2, C6, C7) -/

/-- The pixel trace is never empty: the current pixel is always
written before the endpoint test. -/
lemma bres_trace_ne_nil (x1 y1 dx dy sx sy : ℤ) :
    ∀ (fuel : ℕ) (s : BresState),
      bres_trace x1 y1 dx dy sx sy fuel s ≠ [] := by
  intro fuel s
  cases fuel with
  | zero => simp [bres_trace]
  | succ n =>
      simp only [bres_trace]
      split <;> simp

/-- `getLast?` of a cons with nonempty tail is `getLast?` of the
tail. -/
lemma getLast?_cons_tail {α : Type} (p : α) (L : List α) (h : L ≠ []) :
    (p :: L).getLast? = L.getLast? := by
  cases L with
  | nil => exact absurd rfl h
  | cons q L' => rw [List.getLast?_cons_cons]

/-- The trace always starts at the current point. -/
lemma bres_trace_head (x1 y1 dx dy sx sy : ℤ) (fuel : ℕ) (s : BresState) :
    (bres_trace x1 y1 dx dy sx sy fuel s).head? = some (s.x, s.y) := by
  cases fuel with
  | zero => simp [bres_trace]
  | succ n =>
      simp only [bres_trace]
      split <;> simp

/-- Cancelling a unit step sign: `sx · (x0 + sx·a - x0) = a`. -/
lemma signed_offset (sx x0 a : ℤ) (hsx2 : sx * sx = 1) :
    sx * (x0 + sx * a - x0) = a := by
  have h : x0 + sx * a - x0 = sx * a := by ring
  rw [h, ← mul_assoc, hsx2, one_mul]

/-- A point whose signed offset from `x0` lies in `[0, dx]` lies between
the endpoints. -/
lemma between_of_step (x0 x1 dx sx t : ℤ) (hsx : sx = 1 ∨ sx = -1)
    (hx1 : x1 = x0 + sx * dx) (h0 : 0 ≤ sx * (t - x0)) (h1 : sx * (t - x0) ≤ dx) :
    min x0 x1 ≤ t ∧ t ≤ max x0 x1 := by
  rcases hsx with h | h <;> subst h
  · constructor
    · exact le_trans (min_le_left _ _) (by linarith)
    · exact le_trans (by linarith) (le_max_right _ _)
  · constructor
    · exact le_trans (min_le_right _ _) (by linarith)
    · exact le_trans (by linarith) (le_max_left _ _)

/-- Main invariant of the Bresenham loop.  With `a`/`b` the number of
x/y steps taken so far (recoverable from the position since steps are
monotone), the error term always equals `dx - dy - a·dy + b·dx`, the
step counters never leave `[0,dx] × [0,dy]` (the guards cannot fire at
the far edges), every iteration strictly increases `a + b`, and the
loop reaches `(x1, y1)` within the remaining fuel. -/
lemma bres_trace_spec (x0 y0 x1 y1 dx dy sx sy : ℤ)
    (hdx : 0 ≤ dx) (hdy : 0 ≤ dy)
    (hsx : sx = 1 ∨ sx = -1) (hsy : sy = 1 ∨ sy = -1)
    (hx1 : x1 = x0 + sx * dx) (hy1 : y1 = y0 + sy * dy) :
    ∀ (fuel : ℕ) (a b : ℤ) (s : BresState),
      0 ≤ a → a ≤ dx → 0 ≤ b → b ≤ dy →
      s.x = x0 + sx * a → s.y = y0 + sy * b →
      s.err = dx - dy - a * dy + b * dx →
      dx - a + (dy - b) ≤ (fuel : ℤ) →
      (bres_trace x1 y1 dx dy sx sy fuel s).getLast? = some (x1, y1) ∧
      (∀ p ∈ bres_trace x1 y1 dx dy sx sy fuel s,
        0 ≤ sx * (p.1 - x0) ∧ sx * (p.1 - x0) ≤ dx ∧
        0 ≤ sy * (p.2 - y0) ∧ sy * (p.2 - y0) ≤ dy ∧
        a + b ≤ sx * (p.1 - x0) + sy * (p.2 - y0)) ∧
      (bres_trace x1 y1 dx dy sx sy fuel s).Pairwise
        (fun p q => sx * (p.1 - x0) + sy * (p.2 - y0)
          < sx * (q.1 - x0) + sy * (q.2 - y0)) := by
  have hsx2 : sx * sx = 1 := by rcases hsx with h | h <;> rw [h] <;> ring
  have hsy2 : sy * sy = 1 := by rcases hsy with h | h <;> rw [h] <;> ring
  have hsxne : sx ≠ 0 := by rcases hsx with h | h <;> rw [h] <;> norm_num
  have hsyne : sy ≠ 0 := by rcases hsy with h | h <;> rw [h] <;> norm_num
  intro fuel
  induction fuel with
  | zero =>
      intro a b s ha0 hadx hb0 hbdy hx hy herr hfuel
      have ha : a = dx := by push_cast at hfuel; linarith
      have hb : b = dy := by push_cast at hfuel; linarith
      have hsx' : s.x = x1 := by rw [hx, ha, hx1]
      have hsy' : s.y = y1 := by rw [hy, hb, hy1]
      have hma : sx * (s.x - x0) = a := by rw [hx]; exact signed_offset sx x0 a hsx2
      have hmb : sy * (s.y - y0) = b := by rw [hy]; exact signed_offset sy y0 b hsy2
      refine ⟨by simp [bres_trace, hsx', hsy'], ?_, by simp [bres_trace]⟩
      intro p hp
      simp only [bres_trace, List.mem_singleton] at hp
      subst hp
      refine ⟨?_, ?_, ?_, ?_, ?_⟩ <;> simp only [hma, hmb] <;> linarith
  | succ n ih =>
      intro a b s ha0 hadx hb0 hbdy hx hy herr hfuel
      have hma : sx * (s.x - x0) = a := by rw [hx]; exact signed_offset sx x0 a hsx2
      have hmb : sy * (s.y - y0) = b := by rw [hy]; exact signed_offset sy y0 b hsy2
      by_cases hend : s.x = x1 ∧ s.y = y1
      · refine ⟨by simp [bres_trace, hend], ?_, ?_⟩
        · intro p hp
          simp only [bres_trace, if_pos hend, List.mem_singleton] at hp
          subst hp
          refine ⟨?_, ?_, ?_, ?_, ?_⟩ <;> simp only [hma, hmb] <;> linarith
        · simp [bres_trace, hend]
      · -- not yet at the endpoint: the loop takes at least one step
        have hab : ¬(a = dx ∧ b = dy) := by
          rintro ⟨h1, h2⟩
          exact hend ⟨by rw [hx, h1, hx1], by rw [hy, h2, hy1]⟩
        -- characterize the step in terms of the two guards
        obtain ⟨a', b', ha'0, ha'dx, hb'0, hb'dy, hx', hy', herr', hsum⟩ :
            ∃ a' b', 0 ≤ a' ∧ a' ≤ dx ∧ 0 ≤ b' ∧ b' ≤ dy ∧
              (bres_step dx dy sx sy s).x = x0 + sx * a' ∧
              (bres_step dx dy sx sy s).y = y0 + sy * b' ∧
              (bres_step dx dy sx sy s).err = dx - dy - a' * dy + b' * dx ∧
              a + b + 1 ≤ a' + b' := by
          by_cases hc1 : 2 * s.err > -dy <;> by_cases hc2 : 2 * s.err < dx
          · -- diagonal step
            have ha1 : a < dx := by
              rcases lt_or_eq_of_le hadx with hlt | heq
              · exact hlt
              · exfalso
                have hbdy' : b < dy :=
                  lt_of_le_of_ne hbdy fun hbe => hab ⟨heq, hbe⟩
                nlinarith [mul_nonneg hdx (by linarith : (0:ℤ) ≤ dy - b - 1)]
            have hb1 : b < dy := by
              rcases lt_or_eq_of_le hbdy with hlt | heq
              · exact hlt
              · exfalso
                have hadx' : a < dx :=
                  lt_of_le_of_ne hadx fun hae => hab ⟨hae, heq⟩
                nlinarith [mul_nonneg hdy (by linarith : (0:ℤ) ≤ dx - a - 1)]
            refine ⟨a + 1, b + 1, by linarith, by linarith, by linarith,
              by linarith, ?_, ?_, ?_, by linarith⟩
            · simp [bres_step, hc1, hc2, hx]; ring
            · simp [bres_step, hc1, hc2, hy]; ring
            · simp [bres_step, hc1, hc2]; rw [herr]; ring
          · -- horizontal step only
            have ha1 : a < dx := by
              rcases lt_or_eq_of_le hadx with hlt | heq
              · exact hlt
              · exfalso
                have hbdy' : b < dy :=
                  lt_of_le_of_ne hbdy fun hbe => hab ⟨heq, hbe⟩
                nlinarith [mul_nonneg hdx (by linarith : (0:ℤ) ≤ dy - b - 1)]
            refine ⟨a + 1, b, by linarith, by linarith, hb0, hbdy,
              ?_, ?_, ?_, by linarith⟩
            · simp [bres_step, hc1, hc2, hx]; ring
            · simp [bres_step, hc1, hc2, hy]
            · simp [bres_step, hc1, hc2]; rw [herr]; ring
          · -- vertical step only
            have hb1 : b < dy := by
              rcases lt_or_eq_of_le hbdy with hlt | heq
              · exact hlt
              · exfalso
                have hadx' : a < dx :=
                  lt_of_le_of_ne hadx fun hae => hab ⟨hae, heq⟩
                nlinarith [mul_nonneg hdy (by linarith : (0:ℤ) ≤ dx - a - 1)]
            refine ⟨a, b + 1, ha0, hadx, by linarith, by linarith,
              ?_, ?_, ?_, by linarith⟩
            · simp [bres_step, hc1, hc2, hx]
            · simp [bres_step, hc1, hc2, hy]; ring
            · simp [bres_step, hc1, hc2]; rw [herr]; ring
          · -- both guards closed: impossible away from the endpoint
            exfalso
            have h1 : dx ≤ 2 * s.err := le_of_not_lt hc2
            have h2 : 2 * s.err ≤ -dy := le_of_not_lt hc1
            have hdx0 : dx = 0 := by linarith
            have hdy0 : dy = 0 := by linarith
            exact hab ⟨by linarith, by linarith⟩
        have hfuel' : dx - a' + (dy - b') ≤ (n : ℤ) := by
          push_cast at hfuel ⊢
          linarith
        obtain ⟨ihLast, ihMem, ihPw⟩ :=
          ih a' b' (bres_step dx dy sx sy s) ha'0 ha'dx hb'0 hb'dy hx' hy'
            herr' hfuel'
        have hunfold : bres_trace x1 y1 dx dy sx sy (n + 1) s
            = (s.x, s.y) :: bres_trace x1 y1 dx dy sx sy n
                (bres_step dx dy sx sy s) := by
          simp only [bres_trace, if_neg hend]
        rw [hunfold]
        refine ⟨?_, ?_, ?_⟩
        · rw [getLast?_cons_tail _ _ (bres_trace_ne_nil x1 y1 dx dy sx sy n _)]
          exact ihLast
        · intro p hp
          rcases List.mem_cons.mp hp with rfl | hp'
          · refine ⟨?_, ?_, ?_, ?_, ?_⟩ <;> simp only [hma, hmb] <;> linarith
          · obtain ⟨q1, q2, q3, q4, q5⟩ := ihMem p hp'
            exact ⟨q1, q2, q3, q4, by linarith⟩
        · rw [List.pairwise_cons]
          refine ⟨?_, ihPw⟩
          intro q hq
          have hmq := (ihMem q hq).2.2.2.2
          simp only [hma, hmb]
          linarith

/-- Specification of `bres_points`: the pixel list starts at
`(x0, y0)`, ends at `(x1, y1)`, repeats no point, and stays inside the
bounding box of the two endpoints. -/
lemma bres_points_spec (x0 y0 x1 y1 : ℤ) :
    (bres_points x0 y0 x1 y1).head? = some (x0, y0) ∧
    (bres_points x0 y0 x1 y1).getLast? = some (x1, y1) ∧
    (bres_points x0 y0 x1 y1).Nodup ∧
    ∀ p ∈ bres_points x0 y0 x1 y1,
      min x0 x1 ≤ p.1 ∧ p.1 ≤ max x0 x1 ∧ min y0 y1 ≤ p.2 ∧ p.2 ≤ max y0 y1 := by
  have hsx : (if x0 < x1 then (1 : ℤ) else -1) = 1 ∨
      (if x0 < x1 then (1 : ℤ) else -1) = -1 := by split <;> simp
  have hsy : (if y0 < y1 then (1 : ℤ) else -1) = 1 ∨
      (if y0 < y1 then (1 : ℤ) else -1) = -1 := by split <;> simp
  have hx1 : x1 = x0 + (if x0 < x1 then (1 : ℤ) else -1) * |x1 - x0| := by
    split
    · rw [abs_of_nonneg (by linarith)]; ring
    · rw [abs_of_nonpos (by linarith)]; ring
  have hy1 : y1 = y0 + (if y0 < y1 then (1 : ℤ) else -1) * |y1 - y0| := by
    split
    · rw [abs_of_nonneg (by linarith)]; ring
    · rw [abs_of_nonpos (by linarith)]; ring
  have hfuel : |x1 - x0| - 0 + (|y1 - y0| - 0)
      ≤ (((|x1 - x0| + |y1 - y0|).toNat : ℕ) : ℤ) := by
    rw [Int.toNat_of_nonneg (by positivity)]
    linarith
  obtain ⟨hlast, hmem, hpw⟩ :=
    bres_trace_spec x0 y0 x1 y1 (|x1 - x0|) (|y1 - y0|)
      (if x0 < x1 then (1 : ℤ) else -1) (if y0 < y1 then (1 : ℤ) else -1)
      (abs_nonneg _) (abs_nonneg _) hsx hsy hx1 hy1
      (|x1 - x0| + |y1 - y0|).toNat 0 0
      { x := x0, y := y0, err := |x1 - x0| - |y1 - y0| }
      le_rfl (abs_nonneg _) le_rfl (abs_nonneg _) (by simp) (by simp)
      (by ring) hfuel
  refine ⟨?_, ?_, ?_, ?_⟩
  · show (bres_points x0 y0 x1 y1).head? = some (x0, y0)
    simp only [bres_points]
    exact bres_trace_head _ _ _ _ _ _ _ _
  · exact hlast
  · exact hpw.imp fun hlt heq => by rw [heq] at hlt; exact lt_irrefl _ hlt
  · intro p hp
    obtain ⟨q1, q2, q3, q4, _⟩ := hmem p hp
    obtain ⟨hx_lo, hx_hi⟩ := between_of_step x0 x1 (|x1 - x0|)
      (if x0 < x1 then (1 : ℤ) else -1) p.1 hsx hx1 q1 q2
    obtain ⟨hy_lo, hy_hi⟩ := between_of_step y0 y1 (|y1 - y0|)
      (if y0 < y1 then (1 : ℤ) else -1) p.2 hsy hy1 q3 q4
    exact ⟨hx_lo, hx_hi, hy_lo, hy_hi⟩

/-- The clamped value lies in `[0, mx]` whenever `0 ≤ mx`. -/
lemma CLAMP_mem (n mx : ℤ) (h : 0 ≤ mx) :
    0 ≤ CLAMP n 0 mx ∧ CLAMP n 0 mx ≤ mx := by
  unfold CLAMP
  split_ifs <;> omega

/-- A value already in `[0, mx]` is left unchanged by the clamp. -/
lemma CLAMP_id (n mx : ℤ) (h0 : 0 ≤ n) (h1 : n ≤ mx) : CLAMP n 0 mx = n := by
  unfold CLAMP
  split_ifs <;> omega

/-! ### Claims C2, C6, C7 -/

/-- C6.  Rasterizer termination and single visitation: for every pair of
endpoints (as clamped by `render_draw_line`), the Bresenham loop
terminates within `dx + dy` iterations, and the finite pixel sequence it
writes begins at the clamped `(x0, y0)`, ends at the clamped `(x1, y1)`
(endpoints inclusive), and visits no point twice. -/
theorem bresenham_terminates_endpoints_nodup (w h x0 y0 x1 y1 : ℤ) :
    (render_draw_line w h x0 y0 x1 y1).head?
        = some (CLAMP x0 0 (w - 1), CLAMP y0 0 (h - 1)) ∧
    (render_draw_line w h x0 y0 x1 y1).getLast?
        = some (CLAMP x1 0 (w - 1), CLAMP y1 0 (h - 1)) ∧
    (render_draw_line w h x0 y0 x1 y1).Nodup := by
  obtain ⟨h1, h2, h3, _⟩ := bres_points_spec (CLAMP x0 0 (w - 1))
    (CLAMP y0 0 (h - 1)) (CLAMP x1 0 (w - 1)) (CLAMP y1 0 (h - 1))
  exact ⟨h1, h2, h3⟩

/-- C2.  Pixel-write safety: for arbitrary (possibly negative or
surface-exceeding) integer coordinates, every pixel visited by the
Bresenham loop of `render_draw_line` on a positive-size `w × h` surface
lies inside `[0, w) × [0, h)`; hence every framebuffer store
`framebuffer[w·y + x]` is in bounds. -/
theorem draw_line_pixels_in_bounds (w h x0 y0 x1 y1 : ℤ)
    (hw : 0 < w) (hh : 0 < h) :
    ∀ p ∈ render_draw_line w h x0 y0 x1 y1,
      (0 ≤ p.1 ∧ p.1 < w) ∧ (0 ≤ p.2 ∧ p.2 < h) := by
  intro p hp
  obtain ⟨_, _, _, hbox⟩ := bres_points_spec (CLAMP x0 0 (w - 1))
    (CLAMP y0 0 (h - 1)) (CLAMP x1 0 (w - 1)) (CLAMP y1 0 (h - 1))
  obtain ⟨b1, b2, b3, b4⟩ := hbox p hp
  obtain ⟨c0a, c0b⟩ := CLAMP_mem x0 (w - 1) (by omega)
  obtain ⟨c1a, c1b⟩ := CLAMP_mem x1 (w - 1) (by omega)
  obtain ⟨d0a, d0b⟩ := CLAMP_mem y0 (h - 1) (by omega)
  obtain ⟨d1a, d1b⟩ := CLAMP_mem y1 (h - 1) (by omega)
  have hx_lo : (0 : ℤ) ≤ min (CLAMP x0 0 (w - 1)) (CLAMP x1 0 (w - 1)) :=
    le_min c0a c1a
  have hx_hi : max (CLAMP x0 0 (w - 1)) (CLAMP x1 0 (w - 1)) ≤ w - 1 :=
    max_le c0b c1b
  have hy_lo : (0 : ℤ) ≤ min (CLAMP y0 0 (h - 1)) (CLAMP y1 0 (h - 1)) :=
    le_min d0a d1a
  have hy_hi : max (CLAMP y0 0 (h - 1)) (CLAMP y1 0 (h - 1)) ≤ h - 1 :=
    max_le d0b d1b
  constructor
  · constructor
    · linarith
    · linarith
  · constructor
    · linarith
    · linarith

/-- Witness for C2 on a 4×3 surface with wild out-of-range endpoints. -/
theorem draw_line_pixels_in_bounds_witness :
    (0 : ℤ) < 4 ∧ (0 : ℤ) < 3 ∧
    ∀ p ∈ render_draw_line 4 3 (-7) 9 12 (-2),
      (0 ≤ p.1 ∧ p.1 < 4) ∧ (0 ≤ p.2 ∧ p.2 < 3) :=
  ⟨by decide, by decide,
   draw_line_pixels_in_bounds 4 3 (-7) 9 12 (-2) (by decide) (by decide)⟩

/-- C7.  45° segment rasterization: on any surface at least 6 pixels
wide and tall, the segment from `(0,0)` to `(5,5)` visits exactly the
six diagonal points, in order, with no other pixel written. -/
theorem diagonal_segment_pixels (w h : ℤ) (hw : 6 ≤ w) (hh : 6 ≤ h) :
    render_draw_line w h 0 0 5 5
      = [(0, 0), (1, 1), (2, 2), (3, 3), (4, 4), (5, 5)] := by
  unfold render_draw_line
  rw [CLAMP_id 0 (w - 1) le_rfl (by omega), CLAMP_id 0 (h - 1) le_rfl (by omega),
    CLAMP_id 5 (w - 1) (by omega) (by omega), CLAMP_id 5 (h - 1) (by omega) (by omega)]
  decide

/-- Witness for C7 on the smallest admissible surface, 6×6. -/
theorem diagonal_segment_pixels_witness :
    (6 : ℤ) ≤ 6 ∧ (6 : ℤ) ≤ 6 ∧
    render_draw_line 6 6 0 0 5 5
      = [(0, 0), (1, 1), (2, 2), (3, 3), (4, 4), (5, 5)] :=
  ⟨by decide, by decide, diagonal_segment_pixels 6 6 (by decide) (by decide)⟩

/-! ### Helper lemmas for render idempotence (claim C8) -/

/-- The value of the last write to flat index `j` in a write list, if
any. -/
def last_write (ws : List (ℤ × ℕ)) (j : ℤ) : Option ℕ :=
  ws.foldl (fun a w => if w.1 = j then some w.2 else a) none

/-- The last-write fold with an arbitrary starting accumulator. -/
lemma last_write_general (j : ℤ) :
    ∀ (ws : List (ℤ × ℕ)) (acc : Option ℕ),
      ws.foldl (fun a w => if w.1 = j then some w.2 else a) acc
        = match last_write ws j with
          | some v => some v
          | none => acc := by
  intro ws
  induction ws with
  | nil => intro acc; rfl
  | cons w ws ih =>
      intro acc
      have hl : last_write (w :: ws) j
          = ws.foldl (fun a w => if w.1 = j then some w.2 else a)
              (if w.1 = j then some w.2 else none) := rfl
      rw [List.foldl_cons, ih, hl, ih]
      rcases hws : last_write ws j with _ | v
      · by_cases hw : w.1 = j <;> simp [hw]
      · simp

/-- Pointwise characterization of `apply_writes`: a cell holds the value
of the last write to it, or its previous content if never written. -/
lemma apply_writes_get (j : ℤ) :
    ∀ (ws : List (ℤ × ℕ)) (fb : ℤ → ℕ),
      apply_writes ws fb j = (last_write ws j).getD (fb j) := by
  intro ws
  induction ws with
  | nil => intro fb; rfl
  | cons w ws ih =>
      intro fb
      have hl : last_write (w :: ws) j
          = match last_write ws j with
            | some v => some v
            | none => if w.1 = j then some w.2 else none := by
        have : last_write (w :: ws) j
            = ws.foldl (fun a w => if w.1 = j then some w.2 else a)
                (if w.1 = j then some w.2 else none) := rfl
        rw [this, last_write_general]
      show apply_writes ws (fun j' => if j' = w.1 then w.2 else fb j') j
          = (last_write (w :: ws) j).getD (fb j)
      rw [ih, hl]
      rcases hws : last_write ws j with _ | v
      · by_cases hw : w.1 = j
        · simp [hw]
        · have hw' : ¬ j = w.1 := fun he => hw he.symm
          simp [hw, hw']
      · simp

/-- C8.  Render idempotence: `chart_render` reads only the chart state
(never the framebuffer), so running it twice in a row with the same
state — no intervening push or min/max update — leaves the framebuffer
exactly as after the first run. -/
theorem chart_render_idempotent (ctx : ChartCtx) (w h : ℤ) (fb : ℤ → ℕ) :
    chart_render ctx w h (chart_render ctx w h fb)
      = chart_render ctx w h fb := by
  funext j
  show apply_writes (chart_render_writes ctx w h)
      (apply_writes (chart_render_writes ctx w h) fb) j
    = apply_writes (chart_render_writes ctx w h) fb j
  rw [apply_writes_get, apply_writes_get]
  rcases hlw : last_write (chart_render_writes ctx w h) j with _ | v <;> simp

/-! ### Claims C9, C10: serial value parsing -/

/-- The accumulation loop never reads buffer cells it has not written
this call: its outcome is the same for any two residual buffer contents
that agree below the current position. -/
lemma scan_loop_buf_agree :
    ∀ (input : List ℕ) (pos : ℕ) (buf1 buf2 : ℕ → ℕ),
      (∀ i < pos, buf1 i = buf2 i) →
      scan_loop buf1 pos input = scan_loop buf2 pos input := by
  intro input
  induction input with
  | nil => intro pos buf1 buf2 _; rfl
  | cons b rest ih =>
      intro pos buf1 buf2 hagree
      show (if is_space_byte b then
              if pos = 0 then scan_loop buf1 pos rest
              else .token (((List.range pos).map buf1).takeWhile fun v => v ≠ 0)
            else if pos ≥ 63 then .overflow
            else scan_loop (fun i => if i = pos then b else buf1 i) (pos + 1) rest)
          = (if is_space_byte b then
              if pos = 0 then scan_loop buf2 pos rest
              else .token (((List.range pos).map buf2).takeWhile fun v => v ≠ 0)
            else if pos ≥ 63 then .overflow
            else scan_loop (fun i => if i = pos then b else buf2 i) (pos + 1) rest)
      by_cases hsp : is_space_byte b
      · by_cases hp0 : pos = 0
        · simp only [if_pos hsp, if_pos hp0]
          exact ih pos buf1 buf2 hagree
        · simp only [if_pos hsp, if_neg hp0]
          have hmap : (List.range pos).map buf1 = (List.range pos).map buf2 := by
            apply List.map_congr_left
            intro i hi
            exact hagree i (List.mem_range.mp hi)
          rw [hmap]
      · by_cases h63 : pos ≥ 63
        · simp only [if_neg hsp, if_pos h63]
        · simp only [if_neg hsp, if_neg h63]
          apply ih
          intro i hi
          by_cases hip : i = pos
          · simp [hip]
          · have : i < pos := by omega
            simp [hip, hagree i this]

/-- C9.  No hidden cross-call state in value parsing: the outcome of
`serial_uart_read_value` (success flag and destination value) depends
only on the byte sequence consumed from the UART during that
invocation; whatever the static `digit_buffer` retained from earlier
invocations is irrelevant, because the position is reset each call and
every cell read was written first. -/
theorem read_value_no_hidden_state (parse : List ℕ → Option ℚ)
    (buf1 buf2 : ℕ → ℕ) (dst : ℚ) (input : List ℕ) :
    serial_uart_read_value parse buf1 dst input
      = serial_uart_read_value parse buf2 dst input := by
  unfold serial_uart_read_value
  rw [scan_loop_buf_agree input 0 buf1 buf2 (fun i hi => absurd hi (by omega))]

/-- C10.  Failure atomicity of value reading: whenever the modelled
`serial_uart_read_value` returns `false` — token overflowing the
63-character limit, or failed numeric conversion — the destination
float is exactly what it was before the call; it is written only on the
`true` path. -/
theorem read_value_failure_preserves_dst (parse : List ℕ → Option ℚ)
    (buf : ℕ → ℕ) (dst d : ℚ) (input : List ℕ)
    (h : serial_uart_read_value parse buf dst input = some (false, d)) :
    d = dst := by
  unfold serial_uart_read_value at h
  rcases hscan : scan_loop buf 0 input with t | _ | _
  · have h' : (match parse t with
        | none => some (false, dst)
        | some v => some (true, v)) = some (false, d) := by
      rw [hscan] at h
      exact h
    rcases hp : parse t with _ | v <;> rw [hp] at h'
    · simp only [Option.some.injEq, Prod.mk.injEq] at h'
      exact h'.2.symm
    · simp at h'
  · rw [hscan] at h
    simp only [Option.some.injEq, Prod.mk.injEq] at h
    exact h.2.symm
  · rw [hscan] at h
    simp at h

/-- Witness for C10: a one-digit token followed by a space, with a
parser that rejects it; the destination keeps its prior value 7. -/
theorem read_value_failure_preserves_dst_witness :
    serial_uart_read_value (fun _ => none) (fun _ => 0) 7 [49, 32]
        = some (false, 7) ∧ (7 : ℚ) = 7 :=
  ⟨by decide,
   read_value_failure_preserves_dst (fun _ => none) (fun _ => 0) 7 7 [49, 32]
     (by decide)⟩

end Obd2
